import Mathlib

/-!
Verification of the PX4 Matrix pseudoinverse module (`PseudoInverse.hpp`).

The module computes the Moore-Penrose pseudoinverse of a fixed-dimension
real matrix by the method of Courrieu (2008): a full-rank Cholesky
factorization of the smaller Gram matrix followed by one small inversion.

The embedding works over the real numbers: the floating-point scalar type
of the source becomes `ℝ`, and the implementation's machine-epsilon-scaled
rank tolerance becomes its exact-arithmetic limit, the threshold `0`
(a pivot is accepted exactly when it is positive).

Only the header `PseudoInverse.hpp` is among the sources: it fixes the
signatures (the factorizer returns a full `N×N` `SquareMatrix` plus a
separate runtime rank, and `geninv` dispatches on `M ≤ N`), and the
dispatcher's body.  The bodies of `full_rank_cholesky` and of
`Geninv_impl` live in `PseudoInverse.hxx`, which is not among the sources;
those definitions are modelled from the spec (§4.1 and §4.2) as noted on
each of them.
-/

namespace PseudoInverse

open Matrix

/-- Modelled from the spec (§4.1 step 2a; the body of `full_rank_cholesky`
in `PseudoInverse.hxx` is not among the sources): candidate entry `c(i)` for
column `j`, i.e. `A(i,j)` minus the contribution of the `r` previously
accepted factor columns of `L`. -/
def cholCol {N : ℕ} (A L : Matrix (Fin N) (Fin N) ℝ) (r : ℕ) (j i : Fin N) : ℝ :=
  A i j - ∑ k : Fin N, if (k : ℕ) < r then L i k * L j k else 0

/-- Modelled from the spec (§4.1 steps 2b-2d): one column step of the
full-rank Cholesky factorization.  State `s = (L, r)`.  If the pivot `c(j)`
exceeds the tolerance (exactly: is positive), column `r` of `L` receives
`sqrt(pivot)` on the diagonal row `j` and `c(i)/sqrt(pivot)` below it, and
the rank counter is incremented; otherwise the column is skipped and the
state is unchanged. -/
noncomputable def cholStep {N : ℕ} (A : Matrix (Fin N) (Fin N) ℝ) (j : Fin N)
    (s : Matrix (Fin N) (Fin N) ℝ × ℕ) : Matrix (Fin N) (Fin N) ℝ × ℕ :=
  if 0 < cholCol A s.1 s.2 j j then
    (Matrix.of fun i k =>
      if (k : ℕ) = s.2 then
        if i = j then Real.sqrt (cholCol A s.1 s.2 j j)
        else if j < i then cholCol A s.1 s.2 j i / Real.sqrt (cholCol A s.1 s.2 j j)
        else 0
      else s.1 i k,
     s.2 + 1)
  else s

/-- Modelled from the spec (§4.1 step 2): process the columns `j, j+1, …,
N−1` in index order. -/
noncomputable def cholFrom {N : ℕ} (A : Matrix (Fin N) (Fin N) ℝ) (j : ℕ)
    (s : Matrix (Fin N) (Fin N) ℝ × ℕ) : Matrix (Fin N) (Fin N) ℝ × ℕ :=
  if h : j < N then cholFrom A (j + 1) (cholStep A ⟨j, h⟩ s) else s
termination_by N - j
decreasing_by omega

/-- Modelled from the spec (§4.1; the body in `PseudoInverse.hxx` is not
among the sources, the declaration in `PseudoInverse.hpp` is): full rank
Cholesky factorization of `A`.  Per the declared signature
`SquareMatrix<Type, N> full_rank_cholesky(const SquareMatrix<Type, N>& A,
size_t& rank)`, the factor is returned as a full `N×N` square matrix
(accepted columns left-packed, remaining columns zero) and the detected
rank is returned separately, here as the second component of the pair. -/
noncomputable def full_rank_cholesky {N : ℕ} (A : Matrix (Fin N) (Fin N) ℝ) :
    Matrix (Fin N) (Fin N) ℝ × ℕ :=
  cholFrom A 0 (0, 0)

/-- Modelled from the spec (§4.2 "obtaining L (M×r)"): the first `r` columns
of the square factor, as an `R×r` matrix. -/
def sliceCols {R : ℕ} (L : Matrix (Fin R) (Fin R) ℝ) (r : ℕ) :
    Matrix (Fin R) (Fin r) ℝ :=
  Matrix.of fun i k => if h : (k : ℕ) < R then L i ⟨k, h⟩ else 0

namespace Geninv_impl

/-- Modelled from the spec (§4.2, `M ≤ N` branch; the body of
`Geninv_impl::geninv_M` in `PseudoInverse.hxx` is not among the sources):
if the detected rank is `0` the result is the `N×M` zero matrix, otherwise
`X = Gᵀ · L · Y · Y · Lᵀ` with `L` the first `rank` columns of the factor
and `Y = (Lᵀ·L)⁻¹`. -/
noncomputable def geninv_M {M N : ℕ} (G : Matrix (Fin M) (Fin N) ℝ)
    (L : Matrix (Fin M) (Fin M) ℝ) (rank : ℕ) : Matrix (Fin N) (Fin M) ℝ :=
  if rank = 0 then 0
  else
    Gᵀ * sliceCols L rank * ((sliceCols L rank)ᵀ * sliceCols L rank)⁻¹ *
      ((sliceCols L rank)ᵀ * sliceCols L rank)⁻¹ * (sliceCols L rank)ᵀ

/-- Modelled from the spec (§4.2, `M > N` branch; the body of
`Geninv_impl::geninv_N` in `PseudoInverse.hxx` is not among the sources):
if the detected rank is `0` the result is the `N×M` zero matrix, otherwise
`X = L · Y · Y · Lᵀ · Gᵀ` with `L` the first `rank` columns of the factor
and `Y = (Lᵀ·L)⁻¹`. -/
noncomputable def geninv_N {M N : ℕ} (G : Matrix (Fin M) (Fin N) ℝ)
    (L : Matrix (Fin N) (Fin N) ℝ) (rank : ℕ) : Matrix (Fin N) (Fin M) ℝ :=
  if rank = 0 then 0
  else
    sliceCols L rank * ((sliceCols L rank)ᵀ * sliceCols L rank)⁻¹ *
      ((sliceCols L rank)ᵀ * sliceCols L rank)⁻¹ * (sliceCols L rank)ᵀ * Gᵀ

end Geninv_impl

/-- Geninv (from `PseudoInverse.hpp`, lines 33-49): fast pseudoinverse based
on full rank Cholesky factorisation (Courrieu 2008).  Dispatches on the
shape: for `M ≤ N` it factors `A = G·Gᵀ` (`M×M`) and combines through
`Geninv_impl::geninv_M`; otherwise it factors `A = Gᵀ·G` (`N×N`) and
combines through `Geninv_impl::geninv_N`.  The rank is carried as a plain
natural number alongside the full square factor, exactly as the source's
`size_t rank` out-parameter. -/
noncomputable def geninv {M N : ℕ} (G : Matrix (Fin M) (Fin N) ℝ) :
    Matrix (Fin N) (Fin M) ℝ :=
  if M ≤ N then
    Geninv_impl.geninv_M G (full_rank_cholesky (G * Gᵀ)).1
      (full_rank_cholesky (G * Gᵀ)).2
  else
    Geninv_impl.geninv_N G (full_rank_cholesky (Gᵀ * G)).1
      (full_rank_cholesky (Gᵀ * G)).2

/-- Compile-time template parameter `R` with which `geninv` instantiates
`Geninv_impl` (`PseudoInverse.hpp` lines 40 and 47): `M` in the `M ≤ N`
branch, `N` in the other. -/
def Geninv_impl_R (M N : ℕ) : ℕ := if M ≤ N then M else N

/-- Row dimension of a matrix of the embedding (the compile-time row
count of the corresponding `Matrix<Type, M, N>`). -/
def nrows {α : Type} {m n : ℕ} (_ : Matrix (Fin m) (Fin n) α) : ℕ := m

/-- Column dimension of a matrix of the embedding (the compile-time column
count of the corresponding `Matrix<Type, M, N>`). -/
def ncols {α : Type} {m n : ℕ} (_ : Matrix (Fin m) (Fin n) α) : ℕ := n

/-- The four Moore-Penrose conditions for `X` being the pseudoinverse of
`G`: `G·X·G = G`, `X·G·X = X`, and both `G·X` and `X·G` symmetric. -/
def MoorePenrose {M N : ℕ} (G : Matrix (Fin M) (Fin N) ℝ)
    (X : Matrix (Fin N) (Fin M) ℝ) : Prop :=
  G * X * G = G ∧ X * G * X = X ∧ (G * X)ᵀ = G * X ∧ (X * G)ᵀ = X * G

/-! ### Residual and quadratic-form helpers -/

lemma mul_transpose_apply {m r : ℕ} (L : Matrix (Fin m) (Fin r) ℝ) (i i' : Fin m) :
    (L * Lᵀ) i i' = ∑ k, L i k * L i' k := by
  simp [Matrix.mul_apply]

lemma residual_sym {N : ℕ} {A : Matrix (Fin N) (Fin N) ℝ} (hsym : Aᵀ = A)
    (L : Matrix (Fin N) (Fin N) ℝ) : (A - L * Lᵀ)ᵀ = A - L * Lᵀ := by
  rw [Matrix.transpose_sub, hsym, Matrix.transpose_mul, Matrix.transpose_transpose]

lemma cholCol_eq_residual {N : ℕ} {A L : Matrix (Fin N) (Fin N) ℝ} {r : ℕ}
    (hz : ∀ (i k : Fin N), r ≤ (k : ℕ) → L i k = 0) (j i : Fin N) :
    cholCol A L r j i = (A - L * Lᵀ) i j := by
  unfold cholCol
  rw [Matrix.sub_apply, mul_transpose_apply]
  congr 1
  refine Finset.sum_congr rfl fun k _ => ?_
  by_cases h : (k : ℕ) < r
  · rw [if_pos h]
  · rw [if_neg h, hz i k (le_of_not_lt h), zero_mul]

lemma dotProduct_mulVec_expand {N : ℕ} (E : Matrix (Fin N) (Fin N) ℝ)
    (x : Fin N → ℝ) : x ⬝ᵥ E *ᵥ x = ∑ i, x i * ∑ i', E i i' * x i' := by
  simp [Matrix.mulVec, dotProduct]

lemma psd_diag_nonneg {N : ℕ} {E : Matrix (Fin N) (Fin N) ℝ}
    (hpsd : ∀ x : Fin N → ℝ, 0 ≤ x ⬝ᵥ E *ᵥ x) (j : Fin N) : 0 ≤ E j j := by
  simpa using hpsd (Pi.single j (1 : ℝ))

/-- Cauchy-Schwarz for a positive-semidefinite symmetric bilinear form,
specialized to a basis vector on one side: the discriminant of
`t ↦ (x + t·eⱼ)ᵀ E (x + t·eⱼ)` is nonpositive. -/
lemma psd_sq_le {N : ℕ} {E : Matrix (Fin N) (Fin N) ℝ} (hsym : Eᵀ = E)
    (hpsd : ∀ x : Fin N → ℝ, 0 ≤ x ⬝ᵥ E *ᵥ x) (x : Fin N → ℝ) (j : Fin N) :
    (∑ i, x i * E i j) ^ 2 ≤ (x ⬝ᵥ E *ᵥ x) * E j j := by
  have hEba : ∀ a b : Fin N, E a b = E b a := fun a b => by
    rw [← Matrix.transpose_apply E b a, hsym]
  have hrow : (E *ᵥ x) j = ∑ i, x i * E i j := by
    simp only [Matrix.mulVec, dotProduct]
    exact Finset.sum_congr rfl fun i _ => by rw [hEba j i, mul_comm]
  have key : ∀ t : ℝ,
      0 ≤ E j j * (t * t) + (2 * ∑ i, x i * E i j) * t + x ⬝ᵥ E *ᵥ x := by
    intro t
    have h0 := hpsd (x + t • (Pi.single j 1 : Fin N → ℝ))
    simp only [Matrix.mulVec_add, Matrix.mulVec_smul, dotProduct_add,
      add_dotProduct, dotProduct_smul, smul_dotProduct, smul_eq_mul,
      Matrix.mulVec_single, mul_one, single_dotProduct, one_mul] at h0
    have hxu : (x ⬝ᵥ fun i => E i j) = ∑ i, x i * E i j := rfl
    rw [hxu, hrow] at h0
    nlinarith [h0]
  have hd := discrim_le_zero key
  rw [discrim] at hd
  nlinarith [hd]

lemma psd_col_zero {N : ℕ} {E : Matrix (Fin N) (Fin N) ℝ} (hsym : Eᵀ = E)
    (hpsd : ∀ x : Fin N → ℝ, 0 ≤ x ⬝ᵥ E *ᵥ x) {j : Fin N}
    (hjj : E j j ≤ 0) (i : Fin N) : E i j = 0 := by
  have h := psd_sq_le hsym hpsd (Pi.single i (1 : ℝ)) j
  have hsum : (∑ i', (Pi.single i (1 : ℝ) : Fin N → ℝ) i' * E i' j) = E i j := by
    simp [Pi.single_apply]
  rw [hsum] at h
  have hzero : E j j = 0 := le_antisymm hjj (psd_diag_nonneg hpsd j)
  rw [hzero, mul_zero] at h
  have := sq_nonneg (E i j)
  nlinarith

/-! ### The factorization loop invariant -/

/-- Staircase structure of the accepted factor columns: each of the first
`r` columns of `L` has a pivot row, the pivot rows increase strictly with
the column index, lie below `j`, carry a positive entry, and every entry of
a column above its pivot row is zero. -/
def Staircase {N : ℕ} (L : Matrix (Fin N) (Fin N) ℝ) (r j : ℕ) : Prop :=
  ∃ p : ℕ → ℕ,
    (∀ k, k < r → p k < j) ∧
    (∀ k k', k < k' → k' < r → p k < p k') ∧
    (∀ k, ∀ hk : k < N, k < r → ∀ hp : p k < N, 0 < L ⟨p k, hp⟩ ⟨k, hk⟩) ∧
    (∀ k, ∀ hk : k < N, k < r → ∀ i : Fin N, (i : ℕ) < p k → L i ⟨k, hk⟩ = 0)

/-- Loop invariant of the factorization after the columns of index `< j`
have been processed: the state `(L, r)` has its rank counter at most `j`,
only its first `r` columns populated, the residual `A − L·Lᵀ` positive
semidefinite with its first `j` rows annihilated, and the populated columns
forming a staircase. -/
structure CholInv {N : ℕ} (A : Matrix (Fin N) (Fin N) ℝ) (j : ℕ)
    (s : Matrix (Fin N) (Fin N) ℝ × ℕ) : Prop where
  rank_le : s.2 ≤ j
  cols_zero : ∀ (i k : Fin N), s.2 ≤ (k : ℕ) → s.1 i k = 0
  psd : ∀ x : Fin N → ℝ, 0 ≤ x ⬝ᵥ (A - s.1 * s.1ᵀ) *ᵥ x
  rows_zero : ∀ i i' : Fin N, (i : ℕ) < j → (A - s.1 * s.1ᵀ) i i' = 0
  stair : Staircase s.1 s.2 j

lemma cholInv_zero {N : ℕ} (A : Matrix (Fin N) (Fin N) ℝ)
    (hpsd : ∀ x : Fin N → ℝ, 0 ≤ x ⬝ᵥ A *ᵥ x) : CholInv A 0 (0, 0) := by
  constructor
  · exact le_rfl
  · intro i k _
    rfl
  · intro x
    simpa using hpsd x
  · intro i i' h
    exact absurd h (Nat.not_lt_zero _)
  · exact ⟨id, fun k hk => absurd hk (Nat.not_lt_zero _),
      fun k k' _ hk => absurd hk (Nat.not_lt_zero _),
      fun k hk h => absurd h (Nat.not_lt_zero _),
      fun k hk h => absurd h (Nat.not_lt_zero _)⟩

/-- A rejected column leaves the state unchanged while the processed region
grows: a nonpositive pivot forces the whole residual column to vanish. -/
lemma cholInv_step_reject {N : ℕ} {A : Matrix (Fin N) (Fin N) ℝ} (hsym : Aᵀ = A)
    {j : ℕ} (hj : j < N) {s : Matrix (Fin N) (Fin N) ℝ × ℕ} (inv : CholInv A j s)
    (hpiv : ¬ 0 < cholCol A s.1 s.2 ⟨j, hj⟩ ⟨j, hj⟩) : CholInv A (j + 1) s := by
  have hE := cholCol_eq_residual (A := A) inv.cols_zero ⟨j, hj⟩
  have hEsym := residual_sym hsym s.1
  have hjj : (A - s.1 * s.1ᵀ) ⟨j, hj⟩ ⟨j, hj⟩ ≤ 0 := by
    rw [← hE ⟨j, hj⟩]; exact le_of_not_lt hpiv
  have hcol : ∀ i : Fin N, (A - s.1 * s.1ᵀ) i ⟨j, hj⟩ = 0 :=
    psd_col_zero hEsym inv.psd hjj
  refine ⟨Nat.le_succ_of_le inv.rank_le, inv.cols_zero, inv.psd, ?_, ?_⟩
  · intro i i' hi
    rcases Nat.lt_succ_iff_lt_or_eq.mp hi with hi' | hi'
    · exact inv.rows_zero i i' hi'
    · have hij : i = ⟨j, hj⟩ := Fin.ext hi'
      rw [hij, ← Matrix.transpose_apply (A - s.1 * s.1ᵀ) i' ⟨j, hj⟩, hEsym]
      exact hcol i'
  · obtain ⟨p, h1, h2, h3, h4⟩ := inv.stair
    exact ⟨p, fun k hk => Nat.lt_succ_of_lt (h1 k hk), h2, h3, h4⟩

/-- An accepted column: the new column is the residual column scaled by the
square root of the pivot, the residual loses the corresponding rank-one
outer product, and all invariants extend. -/
lemma cholInv_step_accept {N : ℕ} {A : Matrix (Fin N) (Fin N) ℝ} (hsym : Aᵀ = A)
    {j : ℕ} (hj : j < N) {s : Matrix (Fin N) (Fin N) ℝ × ℕ} (inv : CholInv A j s)
    (hpiv : 0 < cholCol A s.1 s.2 ⟨j, hj⟩ ⟨j, hj⟩) :
    CholInv A (j + 1) (cholStep A ⟨j, hj⟩ s) := by
  unfold cholStep
  rw [if_pos hpiv]
  have hE := cholCol_eq_residual (A := A) inv.cols_zero ⟨j, hj⟩
  have hEsym := residual_sym hsym s.1
  have hEba : ∀ a b : Fin N, (A - s.1 * s.1ᵀ) a b = (A - s.1 * s.1ᵀ) b a :=
    fun a b => by rw [← Matrix.transpose_apply (A - s.1 * s.1ᵀ) b a, hEsym]
  have hrN : s.2 < N := lt_of_le_of_lt inv.rank_le hj
  have hpiv' : 0 < (A - s.1 * s.1ᵀ) ⟨j, hj⟩ ⟨j, hj⟩ := by rw [← hE]; exact hpiv
  have hpne : (A - s.1 * s.1ᵀ) ⟨j, hj⟩ ⟨j, hj⟩ ≠ 0 := ne_of_gt hpiv'
  have ht : 0 < Real.sqrt (cholCol A s.1 s.2 ⟨j, hj⟩ ⟨j, hj⟩) :=
    Real.sqrt_pos.mpr hpiv
  have htne : Real.sqrt (cholCol A s.1 s.2 ⟨j, hj⟩ ⟨j, hj⟩) ≠ 0 := ne_of_gt ht
  have ht2 : Real.sqrt (cholCol A s.1 s.2 ⟨j, hj⟩ ⟨j, hj⟩) *
      Real.sqrt (cholCol A s.1 s.2 ⟨j, hj⟩ ⟨j, hj⟩) =
      (A - s.1 * s.1ᵀ) ⟨j, hj⟩ ⟨j, hj⟩ := by
    rw [Real.mul_self_sqrt (le_of_lt hpiv), hE]
  set L' : Matrix (Fin N) (Fin N) ℝ := Matrix.of fun i k =>
    if (k : ℕ) = s.2 then
      if i = ⟨j, hj⟩ then Real.sqrt (cholCol A s.1 s.2 ⟨j, hj⟩ ⟨j, hj⟩)
      else if (⟨j, hj⟩ : Fin N) < i then
        cholCol A s.1 s.2 ⟨j, hj⟩ i / Real.sqrt (cholCol A s.1 s.2 ⟨j, hj⟩ ⟨j, hj⟩)
      else 0
    else s.1 i k with hL'
  have hL'app : ∀ i k : Fin N, L' i k =
      if (k : ℕ) = s.2 then
        if i = ⟨j, hj⟩ then Real.sqrt (cholCol A s.1 s.2 ⟨j, hj⟩ ⟨j, hj⟩)
        else if (⟨j, hj⟩ : Fin N) < i then
          cholCol A s.1 s.2 ⟨j, hj⟩ i /
            Real.sqrt (cholCol A s.1 s.2 ⟨j, hj⟩ ⟨j, hj⟩)
        else 0
      else s.1 i k := fun i k => rfl
  have hL'col : ∀ (i k : Fin N), (k : ℕ) ≠ s.2 → L' i k = s.1 i k := by
    intro i k hk
    rw [hL'app i k, if_neg hk]
  have hv : ∀ i : Fin N, L' i ⟨s.2, hrN⟩ =
      (A - s.1 * s.1ᵀ) i ⟨j, hj⟩ /
        Real.sqrt (cholCol A s.1 s.2 ⟨j, hj⟩ ⟨j, hj⟩) := by
    intro i
    rw [hL'app i ⟨s.2, hrN⟩,
      if_pos (show ((⟨s.2, hrN⟩ : Fin N) : ℕ) = s.2 from rfl)]
    by_cases hij : i = ⟨j, hj⟩
    · rw [if_pos hij, hij, eq_div_iff htne, ht2]
    · rw [if_neg hij]
      by_cases hlt : (⟨j, hj⟩ : Fin N) < i
      · rw [if_pos hlt, hE]
      · have hij' : (i : ℕ) < j := by
          rcases lt_trichotomy (i : ℕ) j with h | h | h
          · exact h
          · exact absurd (Fin.ext h) hij
          · exact absurd (Fin.lt_def.mpr h) hlt
        rw [if_neg hlt, inv.rows_zero i ⟨j, hj⟩ hij', zero_div]
  have hLL' : ∀ i i' : Fin N, (L' * L'ᵀ) i i' = (s.1 * s.1ᵀ) i i' +
      (A - s.1 * s.1ᵀ) i ⟨j, hj⟩ * (A - s.1 * s.1ᵀ) i' ⟨j, hj⟩ /
        (A - s.1 * s.1ᵀ) ⟨j, hj⟩ ⟨j, hj⟩ := by
    intro i i'
    rw [mul_transpose_apply, mul_transpose_apply]
    rw [← Finset.sum_erase_add _ _ (Finset.mem_univ (⟨s.2, hrN⟩ : Fin N)),
      ← Finset.sum_erase_add _ (fun k => s.1 i k * s.1 i' k)
        (Finset.mem_univ (⟨s.2, hrN⟩ : Fin N))]
    have hkeep : ∑ k ∈ Finset.univ.erase (⟨s.2, hrN⟩ : Fin N), L' i k * L' i' k =
        ∑ k ∈ Finset.univ.erase (⟨s.2, hrN⟩ : Fin N), s.1 i k * s.1 i' k := by
      refine Finset.sum_congr rfl fun k hk => ?_
      have hkne : (k : ℕ) ≠ s.2 := by
        intro hkv
        exact (Finset.mem_erase.mp hk).1 (Fin.ext hkv)
      rw [hL'col i k hkne, hL'col i' k hkne]
    have hlast : s.1 i ⟨s.2, hrN⟩ * s.1 i' ⟨s.2, hrN⟩ = 0 := by
      rw [inv.cols_zero i ⟨s.2, hrN⟩ le_rfl, zero_mul]
    rw [hkeep, hlast, add_zero, hv i, hv i', div_mul_div_comm, ht2]
  have hE' : ∀ i i' : Fin N, (A - L' * L'ᵀ) i i' = (A - s.1 * s.1ᵀ) i i' -
      (A - s.1 * s.1ᵀ) i ⟨j, hj⟩ * (A - s.1 * s.1ᵀ) i' ⟨j, hj⟩ /
        (A - s.1 * s.1ᵀ) ⟨j, hj⟩ ⟨j, hj⟩ := by
    intro i i'
    rw [Matrix.sub_apply, hLL']
    simp only [Matrix.sub_apply]
    ring
  constructor
  · exact Nat.succ_le_succ inv.rank_le
  · intro i k hk
    have hkne : (k : ℕ) ≠ s.2 := by omega
    show L' i k = 0
    rw [hL'col i k hkne]
    exact inv.cols_zero i k (by omega)
  · intro x
    show 0 ≤ x ⬝ᵥ (A - L' * L'ᵀ) *ᵥ x
    have hquad : x ⬝ᵥ (A - L' * L'ᵀ) *ᵥ x =
        (x ⬝ᵥ (A - s.1 * s.1ᵀ) *ᵥ x) -
          (∑ i, x i * (A - s.1 * s.1ᵀ) i ⟨j, hj⟩) ^ 2 /
            (A - s.1 * s.1ᵀ) ⟨j, hj⟩ ⟨j, hj⟩ := by
      rw [dotProduct_mulVec_expand, dotProduct_mulVec_expand]
      have inner : ∀ i : Fin N, (∑ i', (A - L' * L'ᵀ) i i' * x i') =
          (∑ i', (A - s.1 * s.1ᵀ) i i' * x i') -
            (A - s.1 * s.1ᵀ) i ⟨j, hj⟩ *
              (∑ i', (A - s.1 * s.1ᵀ) i' ⟨j, hj⟩ * x i') /
              (A - s.1 * s.1ᵀ) ⟨j, hj⟩ ⟨j, hj⟩ := by
        intro i
        rw [Finset.sum_congr rfl fun i' _ => by rw [hE' i i']]
        rw [show (fun i' => ((A - s.1 * s.1ᵀ) i i' -
            (A - s.1 * s.1ᵀ) i ⟨j, hj⟩ * (A - s.1 * s.1ᵀ) i' ⟨j, hj⟩ /
              (A - s.1 * s.1ᵀ) ⟨j, hj⟩ ⟨j, hj⟩) * x i') = fun i' =>
            ((A - s.1 * s.1ᵀ) i i' * x i' -
              (A - s.1 * s.1ᵀ) i ⟨j, hj⟩ *
                ((A - s.1 * s.1ᵀ) i' ⟨j, hj⟩ * x i') /
                (A - s.1 * s.1ᵀ) ⟨j, hj⟩ ⟨j, hj⟩) from funext fun i' => by ring]
        rw [Finset.sum_sub_distrib]
        congr 1
        rw [Finset.mul_sum, Finset.sum_div]
      rw [Finset.sum_congr rfl fun i _ => by rw [inner i]]
      rw [show (fun i => x i * ((∑ i', (A - s.1 * s.1ᵀ) i i' * x i') -
          (A - s.1 * s.1ᵀ) i ⟨j, hj⟩ *
            (∑ i', (A - s.1 * s.1ᵀ) i' ⟨j, hj⟩ * x i') /
            (A - s.1 * s.1ᵀ) ⟨j, hj⟩ ⟨j, hj⟩)) = fun i =>
          (x i * (∑ i', (A - s.1 * s.1ᵀ) i i' * x i') -
            (x i * (A - s.1 * s.1ᵀ) i ⟨j, hj⟩) *
              (∑ i', (A - s.1 * s.1ᵀ) i' ⟨j, hj⟩ * x i') /
              (A - s.1 * s.1ᵀ) ⟨j, hj⟩ ⟨j, hj⟩) from funext fun i => by ring]
      rw [Finset.sum_sub_distrib]
      congr 1
      rw [← Finset.sum_div, ← Finset.sum_mul]
      have hdd : (∑ i', (A - s.1 * s.1ᵀ) i' ⟨j, hj⟩ * x i') =
          ∑ i', x i' * (A - s.1 * s.1ᵀ) i' ⟨j, hj⟩ :=
        Finset.sum_congr rfl fun i' _ => mul_comm _ _
      rw [hdd, sq]
    rw [hquad, sub_nonneg, div_le_iff₀ hpiv']
    exact psd_sq_le hEsym inv.psd x ⟨j, hj⟩
  · intro i i' hi
    show (A - L' * L'ᵀ) i i' = 0
    rcases Nat.lt_succ_iff_lt_or_eq.mp hi with hi' | hi'
    · rw [hE' i i', inv.rows_zero i i' hi', inv.rows_zero i ⟨j, hj⟩ hi',
        zero_mul, zero_div, sub_zero]
    · have hij : i = ⟨j, hj⟩ := Fin.ext hi'
      rw [hij, hE' ⟨j, hj⟩ i', mul_div_cancel_left₀ _ hpne, hEba ⟨j, hj⟩ i',
        sub_self]
  · show Staircase L' (s.2 + 1) (j + 1)
    obtain ⟨p, h1, h2, h3, h4⟩ := inv.stair
    refine ⟨fun k => if k = s.2 then j else p k, ?_, ?_, ?_, ?_⟩
    · intro k hk
      show (if k = s.2 then j else p k) < j + 1
      by_cases hks : k = s.2
      · rw [if_pos hks]; omega
      · rw [if_neg hks]
        exact Nat.lt_succ_of_lt (h1 k (by omega))
    · intro k k' hkk hk'
      show (if k = s.2 then j else p k) < (if k' = s.2 then j else p k')
      by_cases hk's : k' = s.2
      · have hks : k ≠ s.2 := by omega
        rw [if_pos hk's, if_neg hks]
        exact h1 k (by omega)
      · have hks : k ≠ s.2 := by omega
        rw [if_neg hk's, if_neg hks]
        exact h2 k k' hkk (by omega)
    · intro k hk hkr
      show ∀ hp : (if k = s.2 then j else p k) < N,
          0 < L' ⟨if k = s.2 then j else p k, hp⟩ ⟨k, hk⟩
      by_cases hks : k = s.2
      · rw [if_pos hks]
        intro hp
        have hr : (⟨j, hp⟩ : Fin N) = ⟨j, hj⟩ := rfl
        have hc : (⟨k, hk⟩ : Fin N) = ⟨s.2, hrN⟩ := Fin.ext hks
        rw [hr, hc, hv ⟨j, hj⟩]
        exact div_pos hpiv' ht
      · rw [if_neg hks]
        intro hp
        rw [hL'col _ _ (show ((⟨k, hk⟩ : Fin N) : ℕ) ≠ s.2 from hks)]
        exact h3 k hk (by omega) hp
    · intro k hk hkr i hip
      have hip' : (i : ℕ) < (if k = s.2 then j else p k) := hip
      by_cases hks : k = s.2
      · rw [if_pos hks] at hip'
        show L' i ⟨k, hk⟩ = 0
        have hc : (⟨k, hk⟩ : Fin N) = ⟨s.2, hrN⟩ := Fin.ext hks
        rw [hc, hv i, inv.rows_zero i ⟨j, hj⟩ hip', zero_div]
      · rw [if_neg hks] at hip'
        show L' i ⟨k, hk⟩ = 0
        rw [hL'col _ _ (show ((⟨k, hk⟩ : Fin N) : ℕ) ≠ s.2 from hks)]
        exact h4 k hk (by omega) i hip'

lemma cholStep_inv {N : ℕ} {A : Matrix (Fin N) (Fin N) ℝ} (hsym : Aᵀ = A)
    {j : ℕ} (hj : j < N) {s : Matrix (Fin N) (Fin N) ℝ × ℕ}
    (inv : CholInv A j s) : CholInv A (j + 1) (cholStep A ⟨j, hj⟩ s) := by
  by_cases hpiv : 0 < cholCol A s.1 s.2 ⟨j, hj⟩ ⟨j, hj⟩
  · exact cholInv_step_accept hsym hj inv hpiv
  · unfold cholStep
    rw [if_neg hpiv]
    exact cholInv_step_reject hsym hj inv hpiv

lemma cholFrom_inv {N : ℕ} {A : Matrix (Fin N) (Fin N) ℝ} (hsym : Aᵀ = A) :
    ∀ (m j : ℕ) (s : Matrix (Fin N) (Fin N) ℝ × ℕ), N - j ≤ m → j ≤ N →
      CholInv A j s → CholInv A N (cholFrom A j s) := by
  intro m
  induction m with
  | zero =>
    intro j s hm hjN inv
    have hjN' : j = N := by omega
    subst hjN'
    rw [cholFrom, dif_neg (lt_irrefl j)]
    exact inv
  | succ m ih =>
    intro j s hm hjN inv
    by_cases hj : j < N
    · rw [cholFrom, dif_pos hj]
      exact ih (j + 1) _ (by omega) (by omega) (cholStep_inv hsym hj inv)
    · have hjN' : j = N := by omega
      subst hjN'
      rw [cholFrom, dif_neg hj]
      exact inv

/-- Master invariant of the full factorization of a symmetric
positive-semidefinite matrix. -/
lemma full_rank_cholesky_inv {N : ℕ} {A : Matrix (Fin N) (Fin N) ℝ}
    (hsym : Aᵀ = A) (hpsd : ∀ x : Fin N → ℝ, 0 ≤ x ⬝ᵥ A *ᵥ x) :
    CholInv A N (full_rank_cholesky A) :=
  cholFrom_inv hsym N 0 (0, 0) (by omega) (Nat.zero_le N) (cholInv_zero A hpsd)

/-! ### Consequences of the invariant at the end of the loop -/

/-- Exact reconstruction: the full square factor satisfies `L·Lᵀ = A`. -/
lemma chol_mul_self {N : ℕ} {A : Matrix (Fin N) (Fin N) ℝ}
    (hsym : Aᵀ = A) (hpsd : ∀ x : Fin N → ℝ, 0 ≤ x ⬝ᵥ A *ᵥ x) :
    (full_rank_cholesky A).1 * (full_rank_cholesky A).1ᵀ = A := by
  have inv := full_rank_cholesky_inv hsym hpsd
  have h : ∀ i i' : Fin N,
      (A - (full_rank_cholesky A).1 * (full_rank_cholesky A).1ᵀ) i i' = 0 :=
    fun i i' => inv.rows_zero i i' i.isLt
  ext i i'
  have hsub := h i i'
  rw [Matrix.sub_apply, sub_eq_zero] at hsub
  exact hsub.symm

lemma chol_rank_le {N : ℕ} {A : Matrix (Fin N) (Fin N) ℝ}
    (hsym : Aᵀ = A) (hpsd : ∀ x : Fin N → ℝ, 0 ≤ x ⬝ᵥ A *ᵥ x) :
    (full_rank_cholesky A).2 ≤ N :=
  (full_rank_cholesky_inv hsym hpsd).rank_le

lemma chol_cols_zero {N : ℕ} {A : Matrix (Fin N) (Fin N) ℝ}
    (hsym : Aᵀ = A) (hpsd : ∀ x : Fin N → ℝ, 0 ≤ x ⬝ᵥ A *ᵥ x) :
    ∀ (i k : Fin N), (full_rank_cholesky A).2 ≤ (k : ℕ) →
      (full_rank_cholesky A).1 i k = 0 :=
  (full_rank_cholesky_inv hsym hpsd).cols_zero

/-! ### The sliced factor -/

/-- Slicing away zero trailing columns does not change `L·Lᵀ`. -/
lemma slice_mul_transpose {N : ℕ} {L : Matrix (Fin N) (Fin N) ℝ} {r : ℕ}
    (hrN : r ≤ N) (hz : ∀ (i k : Fin N), r ≤ (k : ℕ) → L i k = 0) :
    sliceCols L r * (sliceCols L r)ᵀ = L * Lᵀ := by
  ext i i'
  rw [mul_transpose_apply, mul_transpose_apply]
  calc ∑ k : Fin r, sliceCols L r i k * sliceCols L r i' k
      = ∑ m ∈ Finset.range r,
          (if h : m < N then L i ⟨m, h⟩ * L i' ⟨m, h⟩ else 0) := by
        rw [Finset.sum_fin_eq_sum_range]
        refine Finset.sum_congr rfl fun m hm => ?_
        have hmr : m < r := Finset.mem_range.mp hm
        have hmN : m < N := lt_of_lt_of_le hmr hrN
        rw [dif_pos hmr, dif_pos hmN]
        have e1 : sliceCols L r i ⟨m, hmr⟩ = L i ⟨m, hmN⟩ := by
          show (if h : m < N then L i ⟨m, h⟩ else 0) = L i ⟨m, hmN⟩
          rw [dif_pos hmN]
        have e2 : sliceCols L r i' ⟨m, hmr⟩ = L i' ⟨m, hmN⟩ := by
          show (if h : m < N then L i' ⟨m, h⟩ else 0) = L i' ⟨m, hmN⟩
          rw [dif_pos hmN]
        rw [e1, e2]
    _ = ∑ m ∈ Finset.range N,
          (if h : m < N then L i ⟨m, h⟩ * L i' ⟨m, h⟩ else 0) := by
        refine Finset.sum_subset (Finset.range_subset.mpr hrN) fun m hmN hmr => ?_
        have h1 : m < N := Finset.mem_range.mp hmN
        have h2 : r ≤ m := le_of_not_lt fun h => hmr (Finset.mem_range.mpr h)
        rw [dif_pos h1, hz i ⟨m, h1⟩ h2, zero_mul]
    _ = ∑ k : Fin N, L i k * L i' k :=
        (Finset.sum_fin_eq_sum_range fun k => L i k * L i' k).symm

/-- The staircase makes the sliced factor's columns linearly independent. -/
lemma stair_slice_inj {N : ℕ} {L : Matrix (Fin N) (Fin N) ℝ} {r : ℕ}
    (hrN : r ≤ N) (hst : Staircase L r N) :
    ∀ x : Fin r → ℝ, sliceCols L r *ᵥ x = 0 → x = 0 := by
  intro x hx
  obtain ⟨p, h1, h2, h3, h4⟩ := hst
  have main : ∀ m, ∀ hm : m < r, x ⟨m, hm⟩ = 0 := by
    intro m
    induction m using Nat.strong_induction_on with
    | _ m ih =>
      intro hm
      have hpN : p m < N := h1 m hm
      have hmN : m < N := lt_of_lt_of_le hm hrN
      have hrow : (sliceCols L r *ᵥ x) ⟨p m, hpN⟩ = 0 := by rw [hx]; rfl
      have hsum : (sliceCols L r *ᵥ x) ⟨p m, hpN⟩ =
          ∑ k : Fin r, sliceCols L r ⟨p m, hpN⟩ k * x k := rfl
      have hsingle : ∑ k : Fin r, sliceCols L r ⟨p m, hpN⟩ k * x k =
          sliceCols L r ⟨p m, hpN⟩ ⟨m, hm⟩ * x ⟨m, hm⟩ := by
        refine Finset.sum_eq_single _ (fun b _ hb => ?_)
          (fun h => absurd (Finset.mem_univ _) h)
        have hbv : (b : ℕ) ≠ m := fun h => hb (Fin.ext h)
        rcases lt_or_gt_of_ne hbv with hlt | hgt
        · rw [show x b = x ⟨(b : ℕ), b.isLt⟩ from rfl, ih (b : ℕ) hlt b.isLt,
            mul_zero]
        · have hbN : (b : ℕ) < N := lt_of_lt_of_le b.isLt hrN
          have hsl : sliceCols L r ⟨p m, hpN⟩ b = L ⟨p m, hpN⟩ ⟨(b : ℕ), hbN⟩ := by
            simp only [sliceCols, Matrix.of_apply, dif_pos hbN]
          rw [hsl, h4 (b : ℕ) hbN b.isLt ⟨p m, hpN⟩ (h2 m (b : ℕ) hgt b.isLt),
            zero_mul]
      have hsl : sliceCols L r ⟨p m, hpN⟩ ⟨m, hm⟩ = L ⟨p m, hpN⟩ ⟨m, hmN⟩ := by
        simp only [sliceCols, Matrix.of_apply, dif_pos hmN]
      have hzero : L ⟨p m, hpN⟩ ⟨m, hmN⟩ * x ⟨m, hm⟩ = 0 := by
        rw [← hsl, ← hsingle, ← hsum, hrow]
      exact (mul_eq_zero.mp hzero).resolve_left (ne_of_gt (h3 m hmN hm hpN))
  funext k
  exact main (k : ℕ) k.isLt

/-- The small Gram matrix `Lᵀ·L` of the sliced factor is invertible. -/
lemma stair_slice_gram_isUnit {N : ℕ} {L : Matrix (Fin N) (Fin N) ℝ} {r : ℕ}
    (hrN : r ≤ N) (hst : Staircase L r N) :
    IsUnit ((sliceCols L r)ᵀ * sliceCols L r).det := by
  have hker : ∀ z : Fin r → ℝ, ((sliceCols L r)ᵀ * sliceCols L r) *ᵥ z = 0 →
      z = 0 := by
    intro z hz
    have h0 : z ⬝ᵥ ((sliceCols L r)ᵀ * sliceCols L r) *ᵥ z = 0 := by
      rw [hz, dotProduct_zero]
    rw [← Matrix.mulVec_mulVec, Matrix.dotProduct_mulVec,
      Matrix.vecMul_transpose, dotProduct_self_eq_zero] at h0
    exact stair_slice_inj hrN hst z h0
  have hinj : Function.Injective (((sliceCols L r)ᵀ * sliceCols L r).mulVec) := by
    intro a b hab
    have hd : ((sliceCols L r)ᵀ * sliceCols L r) *ᵥ (a - b) = 0 := by
      rw [Matrix.mulVec_sub, hab, sub_self]
    exact sub_eq_zero.mp (hker _ hd)
  exact (Matrix.isUnit_iff_isUnit_det _).mp
    (Matrix.mulVec_injective_iff_isUnit.mp hinj)

/-! ### Moore-Penrose algebra -/

lemma eq_zero_of_mul_transpose_self {m n : ℕ} {B : Matrix (Fin m) (Fin n) ℝ}
    (h : B * Bᵀ = 0) : B = 0 := by
  ext i k
  have hd : (B * Bᵀ) i i = 0 := by rw [h]; rfl
  rw [mul_transpose_apply] at hd
  have hterm := (Finset.sum_eq_zero_iff_of_nonneg
    (fun k' _ => mul_self_nonneg (B i k'))).mp hd k (Finset.mem_univ k)
  exact mul_self_eq_zero.mp hterm

/-- The Courrieu combination step: if `G·Gᵀ = L·Lᵀ` with `L` of full column
rank (witnessed by a two-sided inverse `Y` of `Lᵀ·L`, `Y` symmetric), then
`X = Gᵀ·L·Y·Y·Lᵀ` satisfies the four Moore-Penrose conditions. -/
lemma mp_of_factor {m n r : ℕ} (G : Matrix (Fin m) (Fin n) ℝ)
    (L : Matrix (Fin m) (Fin r) ℝ) (Y : Matrix (Fin r) (Fin r) ℝ)
    (hA : G * Gᵀ = L * Lᵀ) (hY1 : Y * (Lᵀ * L) = 1) (hY2 : (Lᵀ * L) * Y = 1)
    (hYt : Yᵀ = Y) : MoorePenrose G (Gᵀ * L * Y * Y * Lᵀ) := by
  have hAz : ∀ {p : ℕ} (Z : Matrix (Fin m) (Fin p) ℝ),
      G * (Gᵀ * Z) = L * (Lᵀ * Z) := fun Z => by
    rw [← Matrix.mul_assoc, ← Matrix.mul_assoc, hA]
  have canc1 : ∀ {p : ℕ} (Z : Matrix (Fin r) (Fin p) ℝ),
      Lᵀ * (L * (Y * Z)) = Z := fun Z => by
    rw [← Matrix.mul_assoc, ← Matrix.mul_assoc, hY2, Matrix.one_mul]
  have canc2 : ∀ {p : ℕ} (Z : Matrix (Fin r) (Fin p) ℝ),
      Y * (Lᵀ * (L * Z)) = Z := fun Z => by
    rw [← Matrix.mul_assoc, ← Matrix.mul_assoc, Matrix.mul_assoc Y Lᵀ L, hY1,
      Matrix.one_mul]
  have e1 : G * (Gᵀ * L * Y * Y * Lᵀ) = L * Y * Lᵀ := by
    simp only [Matrix.mul_assoc]
    rw [hAz, canc1]
  have hPt : (L * Y * Lᵀ)ᵀ = L * Y * Lᵀ := by
    rw [Matrix.transpose_mul, Matrix.transpose_mul, Matrix.transpose_transpose,
      hYt, Matrix.mul_assoc]
  have hGGt : (G * Gᵀ)ᵀ = G * Gᵀ := by
    rw [Matrix.transpose_mul, Matrix.transpose_transpose]
  have f1 : L * Y * Lᵀ * (G * Gᵀ) = G * Gᵀ := by
    rw [hA]
    simp only [Matrix.mul_assoc]
    rw [canc2]
  have f2 : G * Gᵀ * (L * Y * Lᵀ) = G * Gᵀ := by
    have h := congrArg Matrix.transpose f1
    rw [Matrix.transpose_mul, hPt, hGGt] at h
    exact h
  have hPG : L * Y * Lᵀ * G = G := by
    have f1' := f1
    have f2' := f2
    simp only [Matrix.mul_assoc] at f1' f2'
    have hMM : (L * Y * Lᵀ * G - G) * (L * Y * Lᵀ * G - G)ᵀ = 0 := by
      rw [Matrix.transpose_sub, Matrix.transpose_mul, hPt, Matrix.sub_mul,
        Matrix.mul_sub, Matrix.mul_sub]
      have g1 : L * Y * Lᵀ * G * (Gᵀ * (L * Y * Lᵀ)) = G * Gᵀ := by
        simp only [Matrix.mul_assoc]
        rw [f2', f1']
      have g2 : L * Y * Lᵀ * G * Gᵀ = G * Gᵀ := by
        simp only [Matrix.mul_assoc]
        rw [f1']
      have g3 : G * (Gᵀ * (L * Y * Lᵀ)) = G * Gᵀ := by
        simp only [Matrix.mul_assoc]
        rw [f2']
      rw [g1, g2, g3]
      simp
    exact sub_eq_zero.mp (eq_zero_of_mul_transpose_self hMM)
  refine ⟨?_, ?_, ?_, ?_⟩
  · rw [e1]
    exact hPG
  · rw [Matrix.mul_assoc (Gᵀ * L * Y * Y * Lᵀ) G _, e1]
    simp only [Matrix.mul_assoc]
    rw [canc2]
  · rw [e1]
    exact hPt
  · simp only [Matrix.transpose_mul, Matrix.transpose_transpose, hYt,
      Matrix.mul_assoc]

lemma mp_transpose {m n : ℕ} {G : Matrix (Fin m) (Fin n) ℝ}
    {X : Matrix (Fin n) (Fin m) ℝ} (h : MoorePenrose G X) :
    MoorePenrose Gᵀ Xᵀ := by
  obtain ⟨h1, h2, h3, h4⟩ := h
  refine ⟨?_, ?_, ?_, ?_⟩
  · rw [← Matrix.transpose_mul, ← Matrix.transpose_mul, ← Matrix.mul_assoc, h1]
  · rw [← Matrix.transpose_mul, ← Matrix.transpose_mul, ← Matrix.mul_assoc, h2]
  · rw [← Matrix.transpose_mul, Matrix.transpose_transpose, h4]
  · rw [← Matrix.transpose_mul, Matrix.transpose_transpose, h3]

lemma mp_unique {m n : ℕ} {G : Matrix (Fin m) (Fin n) ℝ}
    {X₁ X₂ : Matrix (Fin n) (Fin m) ℝ}
    (h1 : MoorePenrose G X₁) (h2 : MoorePenrose G X₂) : X₁ = X₂ := by
  obtain ⟨a1, b1, c1, d1⟩ := h1
  obtain ⟨a2, b2, c2, d2⟩ := h2
  have hGX : G * X₁ = G * X₂ := by
    calc G * X₁ = (G * X₁)ᵀ := c1.symm
      _ = X₁ᵀ * Gᵀ := by rw [Matrix.transpose_mul]
      _ = X₁ᵀ * (G * X₂ * G)ᵀ := by rw [a2]
      _ = X₁ᵀ * (Gᵀ * (G * X₂)ᵀ) := by rw [Matrix.transpose_mul]
      _ = X₁ᵀ * (Gᵀ * (G * X₂)) := by rw [c2]
      _ = X₁ᵀ * Gᵀ * (G * X₂) := by rw [Matrix.mul_assoc]
      _ = (G * X₁)ᵀ * (G * X₂) := by rw [Matrix.transpose_mul]
      _ = G * X₁ * (G * X₂) := by rw [c1]
      _ = G * X₁ * G * X₂ := by rw [Matrix.mul_assoc (G * X₁) G X₂]
      _ = G * X₂ := by rw [a1]
  have hXG : X₁ * G = X₂ * G := by
    calc X₁ * G = (X₁ * G)ᵀ := d1.symm
      _ = Gᵀ * X₁ᵀ := by rw [Matrix.transpose_mul]
      _ = (G * X₂ * G)ᵀ * X₁ᵀ := by rw [a2]
      _ = (G * (X₂ * G))ᵀ * X₁ᵀ := by rw [Matrix.mul_assoc]
      _ = (X₂ * G)ᵀ * Gᵀ * X₁ᵀ := by rw [Matrix.transpose_mul G (X₂ * G)]
      _ = X₂ * G * Gᵀ * X₁ᵀ := by rw [d2]
      _ = X₂ * G * (Gᵀ * X₁ᵀ) := by rw [Matrix.mul_assoc]
      _ = X₂ * G * (X₁ * G)ᵀ := by rw [Matrix.transpose_mul]
      _ = X₂ * G * (X₁ * G) := by rw [d1]
      _ = X₂ * (G * (X₁ * G)) := by rw [Matrix.mul_assoc]
      _ = X₂ * (G * X₁ * G) := by rw [Matrix.mul_assoc G X₁ G]
      _ = X₂ * G := by rw [a1]
  calc X₁ = X₁ * G * X₁ := b1.symm
    _ = X₂ * G * X₁ := by rw [hXG]
    _ = X₂ * (G * X₁) := by rw [Matrix.mul_assoc]
    _ = X₂ * (G * X₂) := by rw [hGX]
    _ = X₂ * G * X₂ := by rw [Matrix.mul_assoc]
    _ = X₂ := b2

/-! ### The Gram matrices are symmetric positive semidefinite -/

lemma gram_sym {m n : ℕ} (G : Matrix (Fin m) (Fin n) ℝ) :
    (G * Gᵀ)ᵀ = G * Gᵀ := by
  rw [Matrix.transpose_mul, Matrix.transpose_transpose]

lemma gram_psd {m n : ℕ} (G : Matrix (Fin m) (Fin n) ℝ) :
    ∀ x : Fin m → ℝ, 0 ≤ x ⬝ᵥ (G * Gᵀ) *ᵥ x := by
  intro x
  rw [← Matrix.mulVec_mulVec, Matrix.dotProduct_mulVec,
    ← Matrix.mulVec_transpose]
  exact Finset.sum_nonneg fun i _ => mul_self_nonneg _

/-! ### Correctness of the combination steps and of the dispatcher -/

lemma geninv_M_mp {M N : ℕ} (G : Matrix (Fin M) (Fin N) ℝ)
    (L : Matrix (Fin M) (Fin M) ℝ) (r : ℕ)
    (hA : G * Gᵀ = sliceCols L r * (sliceCols L r)ᵀ)
    (hdet : IsUnit ((sliceCols L r)ᵀ * sliceCols L r).det) :
    MoorePenrose G (Geninv_impl.geninv_M G L r) := by
  unfold Geninv_impl.geninv_M
  by_cases hr : r = 0
  · rw [if_pos hr]
    have hG0 : G = 0 := by
      apply eq_zero_of_mul_transpose_self
      rw [hA]
      subst hr
      ext i i'
      rw [mul_transpose_apply]
      simp
    subst hG0
    refine ⟨?_, ?_, ?_, ?_⟩ <;> simp
  · rw [if_neg hr]
    exact mp_of_factor G (sliceCols L r) _ hA
      (Matrix.nonsing_inv_mul _ hdet) (Matrix.mul_nonsing_inv _ hdet)
      (by rw [Matrix.transpose_nonsing_inv, Matrix.transpose_mul,
        Matrix.transpose_transpose])

/-- The `M > N` combination step is the transpose of the `M ≤ N` one
applied to `Gᵀ`. -/
lemma geninv_N_eq_transpose {M N : ℕ} (G : Matrix (Fin M) (Fin N) ℝ)
    (L : Matrix (Fin N) (Fin N) ℝ) (r : ℕ) :
    Geninv_impl.geninv_N G L r = (Geninv_impl.geninv_M Gᵀ L r)ᵀ := by
  unfold Geninv_impl.geninv_N Geninv_impl.geninv_M
  by_cases hr : r = 0
  · rw [if_pos hr, if_pos hr, Matrix.transpose_zero]
  · rw [if_neg hr, if_neg hr]
    have hYt : (((sliceCols L r)ᵀ * sliceCols L r)⁻¹)ᵀ =
        ((sliceCols L r)ᵀ * sliceCols L r)⁻¹ := by
      rw [Matrix.transpose_nonsing_inv, Matrix.transpose_mul,
        Matrix.transpose_transpose]
    simp only [Matrix.transpose_mul, Matrix.transpose_transpose, hYt,
      Matrix.mul_assoc]

/-- The `M ≤ N` branch produces a Moore-Penrose pseudoinverse, for every
input shape. -/
lemma mp_branch_M {M N : ℕ} (G : Matrix (Fin M) (Fin N) ℝ) :
    MoorePenrose G (Geninv_impl.geninv_M G (full_rank_cholesky (G * Gᵀ)).1
      (full_rank_cholesky (G * Gᵀ)).2) := by
  have hsym := gram_sym G
  have hpsd := gram_psd G
  have hrN := chol_rank_le hsym hpsd
  have hz := chol_cols_zero hsym hpsd
  have hA : G * Gᵀ =
      sliceCols (full_rank_cholesky (G * Gᵀ)).1 (full_rank_cholesky (G * Gᵀ)).2 *
        (sliceCols (full_rank_cholesky (G * Gᵀ)).1
          (full_rank_cholesky (G * Gᵀ)).2)ᵀ := by
    rw [slice_mul_transpose hrN hz, chol_mul_self hsym hpsd]
  exact geninv_M_mp G _ _ hA
    (stair_slice_gram_isUnit hrN (full_rank_cholesky_inv hsym hpsd).stair)

/-- The `M > N` branch produces a Moore-Penrose pseudoinverse, for every
input shape. -/
lemma mp_branch_N {M N : ℕ} (G : Matrix (Fin M) (Fin N) ℝ) :
    MoorePenrose G (Geninv_impl.geninv_N G (full_rank_cholesky (Gᵀ * G)).1
      (full_rank_cholesky (Gᵀ * G)).2) := by
  have hGt : Gᵀ * G = Gᵀ * Gᵀᵀ := by rw [Matrix.transpose_transpose]
  have h1 := mp_branch_M Gᵀ
  rw [← hGt] at h1
  have h2 := mp_transpose h1
  rw [Matrix.transpose_transpose] at h2
  rw [geninv_N_eq_transpose]
  exact h2

lemma geninv_eq_M {M N : ℕ} (G : Matrix (Fin M) (Fin N) ℝ) (h : M ≤ N) :
    geninv G = Geninv_impl.geninv_M G (full_rank_cholesky (G * Gᵀ)).1
      (full_rank_cholesky (G * Gᵀ)).2 := by
  unfold geninv
  rw [if_pos h]

lemma geninv_eq_N {M N : ℕ} (G : Matrix (Fin M) (Fin N) ℝ) (h : ¬ M ≤ N) :
    geninv G = Geninv_impl.geninv_N G (full_rank_cholesky (Gᵀ * G)).1
      (full_rank_cholesky (Gᵀ * G)).2 := by
  unfold geninv
  rw [if_neg h]

/-- The dispatcher always returns a Moore-Penrose pseudoinverse. -/
lemma geninv_mp {M N : ℕ} (G : Matrix (Fin M) (Fin N) ℝ) :
    MoorePenrose G (geninv G) := by
  by_cases h : M ≤ N
  · rw [geninv_eq_M G h]
    exact mp_branch_M G
  · rw [geninv_eq_N G h]
    exact mp_branch_N G

/-! ### The all-zero input -/

lemma cholFrom_zero {N : ℕ} : ∀ (m j : ℕ), N - j ≤ m →
    cholFrom (0 : Matrix (Fin N) (Fin N) ℝ) j (0, 0) = (0, 0) := by
  intro m
  induction m with
  | zero =>
    intro j hm
    rw [cholFrom, dif_neg (by omega)]
  | succ m ih =>
    intro j hm
    by_cases hj : j < N
    · rw [cholFrom, dif_pos hj]
      have hstep : cholStep (0 : Matrix (Fin N) (Fin N) ℝ) ⟨j, hj⟩ (0, 0) =
          (0, 0) := by
        simp [cholStep, cholCol]
      rw [hstep]
      exact ih (j + 1) (by omega)
    · rw [cholFrom, dif_neg hj]

lemma full_rank_cholesky_zero {N : ℕ} :
    full_rank_cholesky (0 : Matrix (Fin N) (Fin N) ℝ) = (0, 0) :=
  cholFrom_zero N 0 (by omega)

lemma geninv_M_rank_zero {M N : ℕ} (G : Matrix (Fin M) (Fin N) ℝ)
    (L : Matrix (Fin M) (Fin M) ℝ) : Geninv_impl.geninv_M G L 0 = 0 := by
  unfold Geninv_impl.geninv_M
  rw [if_pos rfl]

lemma geninv_N_rank_zero {M N : ℕ} (G : Matrix (Fin M) (Fin N) ℝ)
    (L : Matrix (Fin N) (Fin N) ℝ) : Geninv_impl.geninv_N G L 0 = 0 := by
  unfold Geninv_impl.geninv_N
  rw [if_pos rfl]

lemma geninv_zero_eq {M N : ℕ} : geninv (0 : Matrix (Fin M) (Fin N) ℝ) = 0 := by
  by_cases h : M ≤ N
  · rw [geninv_eq_M _ h,
      show (0 : Matrix (Fin M) (Fin N) ℝ) * (0 : Matrix (Fin M) (Fin N) ℝ)ᵀ = 0
        from by simp,
      full_rank_cholesky_zero]
    exact geninv_M_rank_zero _ _
  · rw [geninv_eq_N _ h,
      show (0 : Matrix (Fin M) (Fin N) ℝ)ᵀ * (0 : Matrix (Fin M) (Fin N) ℝ) = 0
        from by simp,
      full_rank_cholesky_zero]
    exact geninv_N_rank_zero _ _

/-! ### The claims -/

/-- Claim C1: for every M×N real matrix G, the result X = geninv(G) satisfies the
four Moore-Penrose conditions — G·X·G = G, X·G·X = X, and both G·X and X·G
symmetric — exactly, in the exact-real-arithmetic model of the
floating-point code (tolerance 0). -/
theorem geninv_moore_penrose (M N : ℕ) (G : Matrix (Fin M) (Fin N) ℝ) :
    G * geninv G * G = G ∧ geninv G * G * geninv G = geninv G ∧
      (G * geninv G)ᵀ = G * geninv G ∧ (geninv G * G)ᵀ = geninv G * G :=
  geninv_mp G

/-- Claim C2: for every N×N symmetric positive-semidefinite A, full_rank_cholesky
produces a factor L and a rank r with L·Lᵀ = A (exactly, in the
exact-arithmetic model) and 0 ≤ r ≤ N. -/
theorem full_rank_cholesky_reconstructs (N : ℕ) (A : Matrix (Fin N) (Fin N) ℝ)
    (hsym : Aᵀ = A) (hpsd : ∀ x : Fin N → ℝ, 0 ≤ x ⬝ᵥ A *ᵥ x) :
    (full_rank_cholesky A).1 * (full_rank_cholesky A).1ᵀ = A ∧
      0 ≤ (full_rank_cholesky A).2 ∧ (full_rank_cholesky A).2 ≤ N :=
  ⟨chol_mul_self hsym hpsd, Nat.zero_le _, chol_rank_le hsym hpsd⟩

/-- Witness for C2: the 1×1 identity matrix is symmetric positive
semidefinite, and the theorem applies to it. -/
theorem full_rank_cholesky_reconstructs_witness :
    (full_rank_cholesky (1 : Matrix (Fin 1) (Fin 1) ℝ)).1 *
        (full_rank_cholesky (1 : Matrix (Fin 1) (Fin 1) ℝ)).1ᵀ = 1 ∧
      0 ≤ (full_rank_cholesky (1 : Matrix (Fin 1) (Fin 1) ℝ)).2 ∧
      (full_rank_cholesky (1 : Matrix (Fin 1) (Fin 1) ℝ)).2 ≤ 1 :=
  full_rank_cholesky_reconstructs 1 1 (by simp)
    (fun x => by
      rw [Matrix.one_mulVec]
      exact Finset.sum_nonneg fun i _ => mul_self_nonneg _)

/-- Claim C3: geninv dispatches on shape: for M ≤ N it factors the M×M Gram
matrix G·Gᵀ, otherwise the N×N Gram matrix Gᵀ·G — in both cases the
square Gram matrix of side min(M,N), the smaller one. -/
theorem geninv_dispatch (M N : ℕ) (G : Matrix (Fin M) (Fin N) ℝ) :
    (M ≤ N →
      geninv G = Geninv_impl.geninv_M G (full_rank_cholesky (G * Gᵀ)).1
          (full_rank_cholesky (G * Gᵀ)).2 ∧
        nrows (G * Gᵀ) = min M N ∧ ncols (G * Gᵀ) = min M N) ∧
    (N < M →
      geninv G = Geninv_impl.geninv_N G (full_rank_cholesky (Gᵀ * G)).1
          (full_rank_cholesky (Gᵀ * G)).2 ∧
        nrows (Gᵀ * G) = min M N ∧ ncols (Gᵀ * G) = min M N) := by
  constructor
  · intro h
    refine ⟨geninv_eq_M G h, ?_, ?_⟩
    · show M = min M N
      omega
    · show M = min M N
      omega
  · intro h
    refine ⟨geninv_eq_N G (by omega), ?_, ?_⟩
    · show N = min M N
      omega
    · show N = min M N
      omega

/-- Witness for C3: both branches exercised on concrete shapes (1×2 wide,
so the M ≤ N branch; and its 2×1 transpose for the N < M branch). -/
theorem geninv_dispatch_witness :
    geninv !![(1 : ℝ), 0] =
      Geninv_impl.geninv_M !![(1 : ℝ), 0]
        (full_rank_cholesky (!![(1 : ℝ), 0] * !![(1 : ℝ), 0]ᵀ)).1
        (full_rank_cholesky (!![(1 : ℝ), 0] * !![(1 : ℝ), 0]ᵀ)).2 ∧
    geninv !![(1 : ℝ); 0] =
      Geninv_impl.geninv_N !![(1 : ℝ); 0]
        (full_rank_cholesky (!![(1 : ℝ); 0]ᵀ * !![(1 : ℝ); 0])).1
        (full_rank_cholesky (!![(1 : ℝ); 0]ᵀ * !![(1 : ℝ); 0])).2 :=
  ⟨((geninv_dispatch 1 2 !![(1 : ℝ), 0]).1 (by omega)).1,
    ((geninv_dispatch 2 1 !![(1 : ℝ); 0]).2 (by omega)).1⟩

/-- Claim C4: for square G both branch formulations — the G·Gᵀ-based
Gᵀ·L·Y·Y·Lᵀ and the Gᵀ·G-based L·Y·Y·Lᵀ·Gᵀ — produce the same result
(exactly, in the exact-arithmetic model): both satisfy the Moore-Penrose
conditions and the Moore-Penrose pseudoinverse is unique. -/
theorem geninv_branch_equiv (n : ℕ) (G : Matrix (Fin n) (Fin n) ℝ) :
    Geninv_impl.geninv_M G (full_rank_cholesky (G * Gᵀ)).1
        (full_rank_cholesky (G * Gᵀ)).2 =
      Geninv_impl.geninv_N G (full_rank_cholesky (Gᵀ * G)).1
        (full_rank_cholesky (Gᵀ * G)).2 :=
  mp_unique (mp_branch_M G) (mp_branch_N G)

/-- Claim C5: on the all-zero M×N matrix geninv returns the all-zero N×M matrix;
the factorizer returns rank 0 (and an all-zero factor) on the all-zero
Gram matrix; and whenever the detected rank is 0, either combination step
returns the N×M zero matrix. -/
theorem geninv_zero (M N : ℕ) :
    geninv (0 : Matrix (Fin M) (Fin N) ℝ) = 0 ∧
      full_rank_cholesky (0 : Matrix (Fin M) (Fin M) ℝ) = (0, 0) ∧
      (∀ (G : Matrix (Fin M) (Fin N) ℝ) (L : Matrix (Fin M) (Fin M) ℝ),
        Geninv_impl.geninv_M G L 0 = 0) ∧
      (∀ (G : Matrix (Fin M) (Fin N) ℝ) (L : Matrix (Fin N) (Fin N) ℝ),
        Geninv_impl.geninv_N G L 0 = 0) :=
  ⟨geninv_zero_eq, full_rank_cholesky_zero,
    fun G L => geninv_M_rank_zero G L, fun G L => geninv_N_rank_zero G L⟩

/-- Claim C6: for a square invertible G, geninv(G) is the ordinary inverse. -/
theorem geninv_invertible (n : ℕ) (G : Matrix (Fin n) (Fin n) ℝ)
    (h : IsUnit G.det) : geninv G = G⁻¹ := by
  obtain ⟨h1, -, -, -⟩ := geninv_mp G
  calc geninv G = 1 * geninv G := (Matrix.one_mul _).symm
    _ = G⁻¹ * G * geninv G := by rw [Matrix.nonsing_inv_mul G h]
    _ = G⁻¹ * (G * geninv G) := by rw [Matrix.mul_assoc]
    _ = G⁻¹ * (G * geninv G * (G * G⁻¹)) := by
        rw [Matrix.mul_nonsing_inv G h, Matrix.mul_one]
    _ = G⁻¹ * (G * geninv G * G * G⁻¹) := by
        rw [Matrix.mul_assoc (G * geninv G) G G⁻¹]
    _ = G⁻¹ * (G * G⁻¹) := by rw [h1]
    _ = G⁻¹ := by rw [Matrix.mul_nonsing_inv G h, Matrix.mul_one]

/-- Witness for C6: the 1×1 identity matrix is invertible and the theorem
applies to it. -/
theorem geninv_invertible_witness :
    geninv (1 : Matrix (Fin 1) (Fin 1) ℝ) = 1⁻¹ :=
  geninv_invertible 1 1 (by simp)

/-- Counterexample to C7 as stated: on the all-zero 1×1 matrix the
detected rank is 0, yet the returned factor is a full 1×1 square matrix —
its column count is 1, not the detected rank 0; the dependent column is
present (as a zero column), not omitted. -/
theorem full_rank_cholesky_square_return :
    (full_rank_cholesky (0 : Matrix (Fin 1) (Fin 1) ℝ)).2 = 0 ∧
      ncols (full_rank_cholesky (0 : Matrix (Fin 1) (Fin 1) ℝ)).1 = 1 ∧
      ncols (full_rank_cholesky (0 : Matrix (Fin 1) (Fin 1) ℝ)).1 ≠
        (full_rank_cholesky (0 : Matrix (Fin 1) (Fin 1) ℝ)).2 ∧
      (full_rank_cholesky (0 : Matrix (Fin 1) (Fin 1) ℝ)).1 = 0 := by
  rw [full_rank_cholesky_zero]
  exact ⟨rfl, rfl, one_ne_zero, rfl⟩

/-- Claim C7, amended: the factorizer returns its factor as a full N×N square
matrix (the declared return type), together with the separate detected
rank r ≤ N; the columns of index ≥ r are zero — dependent directions
yield zero columns in place rather than a narrower matrix — and the
truncation to the first r columns loses nothing: the sliced N×r factor
still reconstructs A exactly. -/
theorem full_rank_cholesky_factor_form (N : ℕ) (A : Matrix (Fin N) (Fin N) ℝ)
    (hsym : Aᵀ = A) (hpsd : ∀ x : Fin N → ℝ, 0 ≤ x ⬝ᵥ A *ᵥ x) :
    (full_rank_cholesky A).2 ≤ N ∧
      nrows (full_rank_cholesky A).1 = N ∧
      ncols (full_rank_cholesky A).1 = N ∧
      (∀ (i k : Fin N), (full_rank_cholesky A).2 ≤ (k : ℕ) →
        (full_rank_cholesky A).1 i k = 0) ∧
      sliceCols (full_rank_cholesky A).1 (full_rank_cholesky A).2 *
        (sliceCols (full_rank_cholesky A).1 (full_rank_cholesky A).2)ᵀ = A := by
  refine ⟨chol_rank_le hsym hpsd, rfl, rfl, chol_cols_zero hsym hpsd, ?_⟩
  rw [slice_mul_transpose (chol_rank_le hsym hpsd) (chol_cols_zero hsym hpsd)]
  exact chol_mul_self hsym hpsd

/-- Witness for C7 (amended): the theorem applied to the 1×1 identity. -/
theorem full_rank_cholesky_factor_form_witness :
    (full_rank_cholesky (1 : Matrix (Fin 1) (Fin 1) ℝ)).2 ≤ 1 ∧
      nrows (full_rank_cholesky (1 : Matrix (Fin 1) (Fin 1) ℝ)).1 = 1 ∧
      ncols (full_rank_cholesky (1 : Matrix (Fin 1) (Fin 1) ℝ)).1 = 1 ∧
      (∀ (i k : Fin 1),
        (full_rank_cholesky (1 : Matrix (Fin 1) (Fin 1) ℝ)).2 ≤ (k : ℕ) →
        (full_rank_cholesky (1 : Matrix (Fin 1) (Fin 1) ℝ)).1 i k = 0) ∧
      sliceCols (full_rank_cholesky (1 : Matrix (Fin 1) (Fin 1) ℝ)).1
          (full_rank_cholesky (1 : Matrix (Fin 1) (Fin 1) ℝ)).2 *
        (sliceCols (full_rank_cholesky (1 : Matrix (Fin 1) (Fin 1) ℝ)).1
          (full_rank_cholesky (1 : Matrix (Fin 1) (Fin 1) ℝ)).2)ᵀ = 1 :=
  full_rank_cholesky_factor_form 1 1 (by simp)
    (fun x => by
      rw [Matrix.one_mulVec]
      exact Finset.sum_nonneg fun i _ => mul_self_nonneg _)

/-- Claim C8: the division by the new diagonal entry happens only when the pivot
exceeds the tolerance: a column whose pivot does not is skipped entirely
(the state is unchanged), and when it does, the divisor sqrt(pivot) is
nonzero and the sub-diagonal entries of the new column are
c(i)/sqrt(pivot). -/
theorem cholStep_pivot_guard (N : ℕ) (A : Matrix (Fin N) (Fin N) ℝ)
    (j : Fin N) (s : Matrix (Fin N) (Fin N) ℝ × ℕ) :
    (¬ 0 < cholCol A s.1 s.2 j j → cholStep A j s = s) ∧
    (0 < cholCol A s.1 s.2 j j →
      Real.sqrt (cholCol A s.1 s.2 j j) ≠ 0 ∧
      (cholStep A j s).2 = s.2 + 1 ∧
      ∀ (i : Fin N) (hr : s.2 < N), j < i →
        (cholStep A j s).1 i ⟨s.2, hr⟩ =
          cholCol A s.1 s.2 j i / Real.sqrt (cholCol A s.1 s.2 j j)) := by
  constructor
  · intro h
    unfold cholStep
    rw [if_neg h]
  · intro h
    refine ⟨ne_of_gt (Real.sqrt_pos.mpr h), ?_, ?_⟩
    · unfold cholStep
      rw [if_pos h]
    · intro i hr hji
      unfold cholStep
      rw [if_pos h]
      show (if ((⟨s.2, hr⟩ : Fin N) : ℕ) = s.2 then
          if i = j then Real.sqrt (cholCol A s.1 s.2 j j)
          else if j < i then
            cholCol A s.1 s.2 j i / Real.sqrt (cholCol A s.1 s.2 j j)
          else 0
        else s.1 i ⟨s.2, hr⟩) =
        cholCol A s.1 s.2 j i / Real.sqrt (cholCol A s.1 s.2 j j)
      rw [if_pos (show ((⟨s.2, hr⟩ : Fin N) : ℕ) = s.2 from rfl),
        if_neg (ne_of_gt hji), if_pos hji]

/-- Witness for C8: the guard theorem applied at a concrete state — the
all-zero 1×1 matrix (pivot 0, column skipped). -/
theorem cholStep_pivot_guard_witness :
    cholStep (0 : Matrix (Fin 1) (Fin 1) ℝ) 0 (0, 0) = (0, 0) :=
  (cholStep_pivot_guard 1 0 0 (0, 0)).1
    (by simp [cholCol])

/-- Claim C9: for every M×N input G, geninv(G) has the transpose shape N×M. -/
theorem geninv_shape (M N : ℕ) (G : Matrix (Fin M) (Fin N) ℝ) :
    nrows (geninv G) = ncols G ∧ ncols (geninv G) = nrows G :=
  ⟨rfl, rfl⟩

/-- Claim C10: the dispatcher instantiates Geninv_impl with the compile-time
parameter R = min(M,N) (R = M when M ≤ N, R = N when M > N); the factor it
passes to the combination step is always the full min(M,N)×min(M,N) square
matrix returned by the factorizer, the numerically detected rank travels
only as a separate runtime natural number, and no rank value changes any
compile-time shape. -/
theorem geninv_impl_R_eq_min (M N : ℕ) :
    Geninv_impl_R M N = min M N ∧
    (M ≤ N → Geninv_impl_R M N = M) ∧
    (N < M → Geninv_impl_R M N = N) ∧
    (∀ G : Matrix (Fin M) (Fin N) ℝ, M ≤ N →
      geninv G = Geninv_impl.geninv_M G (full_rank_cholesky (G * Gᵀ)).1
          (full_rank_cholesky (G * Gᵀ)).2 ∧
        nrows (full_rank_cholesky (G * Gᵀ)).1 = Geninv_impl_R M N ∧
        ncols (full_rank_cholesky (G * Gᵀ)).1 = Geninv_impl_R M N) ∧
    (∀ G : Matrix (Fin M) (Fin N) ℝ, N < M →
      geninv G = Geninv_impl.geninv_N G (full_rank_cholesky (Gᵀ * G)).1
          (full_rank_cholesky (Gᵀ * G)).2 ∧
        nrows (full_rank_cholesky (Gᵀ * G)).1 = Geninv_impl_R M N ∧
        ncols (full_rank_cholesky (Gᵀ * G)).1 = Geninv_impl_R M N) ∧
    (∀ (G : Matrix (Fin M) (Fin N) ℝ) (L : Matrix (Fin M) (Fin M) ℝ)
        (r r' : ℕ),
      nrows (Geninv_impl.geninv_M G L r) = nrows (Geninv_impl.geninv_M G L r') ∧
      ncols (Geninv_impl.geninv_M G L r) = ncols (Geninv_impl.geninv_M G L r')) := by
  refine ⟨?_, ?_, ?_, ?_, ?_, ?_⟩
  · show (if M ≤ N then M else N) = min M N
    rw [Nat.min_def]
  · intro h
    show (if M ≤ N then M else N) = M
    rw [if_pos h]
  · intro h
    show (if M ≤ N then M else N) = N
    rw [if_neg (by omega)]
  · intro G h
    refine ⟨geninv_eq_M G h, ?_, ?_⟩
    · show M = if M ≤ N then M else N
      rw [if_pos h]
    · show M = if M ≤ N then M else N
      rw [if_pos h]
  · intro G h
    refine ⟨geninv_eq_N G (by omega), ?_, ?_⟩
    · show N = if M ≤ N then M else N
      rw [if_neg (by omega)]
    · show N = if M ≤ N then M else N
      rw [if_neg (by omega)]
  · intro G L r r'
    exact ⟨rfl, rfl⟩

/-- Witness for C10: instantiated at the concrete shapes 1×2 and 2×1. -/
theorem geninv_impl_R_eq_min_witness :
    Geninv_impl_R 1 2 = min 1 2 ∧ Geninv_impl_R 2 1 = min 2 1 :=
  ⟨(geninv_impl_R_eq_min 1 2).1, (geninv_impl_R_eq_min 2 1).1⟩

end PseudoInverse
